import Mathlib

/-!
Verification of the kellerai-morphmcp filesystem server core
(`dist/index.js`, here `src/unnamed/part_001`).

Text is modelled as `List Char` (one JS string code unit per element,
ASCII-faithful), paths as lists of components (`List Str`).  Each
definition below is a shallow embedding of the correspondingly named
function of the source file; fallible filesystem operations are
modelled by explicit oracles / small state machines.

The file is organized as definitions first, then theorems.
-/

set_option maxHeartbeats 1000000
set_option maxRecDepth 16384

deriving instance DecidableEq for Except

abbrev Str := List Char

/-! ## Definitions: text primitives -/

/-- JS `text.replace(/\r\n/g, '\n')` (`normalizeLineEndings`, part_001:317),
scanning left to right and collapsing each CRLF pair. -/
def normalizeLineEndings : Str → Str
  | [] => []
  | [c] => [c]
  | c :: d :: rest =>
    if c = '\r' ∧ d = '\n' then '\n' :: normalizeLineEndings rest
    else c :: normalizeLineEndings (d :: rest)

/-- JS `String.prototype.split(sep)` for a one-character separator. -/
def splitOnChar (sep : Char) : Str → List Str
  | [] => [[]]
  | c :: cs =>
    let r := splitOnChar sep cs
    if c = sep then [] :: r else (c :: r.headD []) :: r.tail

/-- JS `arr.join(sep)` for a one-character separator. -/
def joinWithChar (sep : Char) (ls : List Str) : Str :=
  List.intercalate [sep] ls

/-- JS `String.prototype.includes` on our character-list strings
(scan every suffix for a prefix match). -/
def includesS (s pat : Str) : Bool :=
  pat.isPrefixOf s ||
    (match s with
     | [] => false
     | _ :: rest => includesS rest pat)

/-- JS `String.prototype.trimStart`. -/
def trimStart (s : Str) : Str := s.dropWhile Char.isWhitespace

/-- JS `String.prototype.trim` (both ends). -/
def trim (s : Str) : Str := ((trimStart s).reverse.dropWhile Char.isWhitespace).reverse

/-- JS `line.match(/^\s*/)?.[0] || ''`: the leading whitespace of a line. -/
def leadingWS (s : Str) : Str := s.takeWhile Char.isWhitespace

/-- Replace the first occurrence of `pat` (nonempty) in `s` by `rep`,
scanning left to right. -/
def replaceFirstGo (pat rep : Str) : Str → Str
  | [] => []
  | c :: rest =>
    if pat.isPrefixOf (c :: rest) then rep ++ (c :: rest).drop pat.length
    else c :: replaceFirstGo pat rep rest

/-- JS `s.replace(pat, rep)` with a plain-string pattern: first occurrence
only.  (The JS dollar-escape sequences in `rep` are not modelled; no claim
involves them.)  An empty pattern matches at position 0, as in JS. -/
def replaceFirst (s pat rep : Str) : Str :=
  if pat = [] then rep ++ s else replaceFirstGo pat rep s

/-- JS `String.prototype.lastIndexOf` for a one-character needle. -/
def lastIndexOfChar (ch : Char) : Str → Option Nat
  | [] => none
  | c :: cs =>
    match lastIndexOfChar ch cs with
    | some k => some (k + 1)
    | none => if c = ch then some 0 else none

/-! ## Definitions: the fuzzy patch engine (`applyFileEdits`, part_001:326-401) -/

/-- An edit operation: `{oldText, newText}` (schema `EditOperation`,
part_001:208). -/
structure Edit where
  oldText : Str
  newText : Str
deriving DecidableEq

/-- One window comparison of the fuzzy matcher (part_001:344-349): every
search line equals the corresponding content line after trimming. -/
def matchesAt (contentLines oldLines : List Str) (i : Nat) : Bool :=
  (oldLines.zip ((contentLines.drop i).take oldLines.length)).all
    fun p => trim p.1 == trim p.2

/-- The scan of part_001:343-370: try indices `i, i+1, ...` while fuel
remains, returning the first match.  `fuel` is the loop's iteration count
`contentLines.length - oldLines.length + 1`. -/
def findMatchIdx (contentLines oldLines : List Str) : Nat → Nat → Option Nat
  | _, 0 => none
  | i, fuel + 1 =>
    if matchesAt contentLines oldLines i then some i
    else findMatchIdx contentLines oldLines (i + 1) fuel

def firstMatch (contentLines oldLines : List Str) : Option Nat :=
  findMatchIdx contentLines oldLines 0 (contentLines.length + 1 - oldLines.length)

/-- Indentation re-derivation for replacement line `j` (part_001:352-364).
`List.replicate (a - b)` on naturals models `' '.repeat(Math.max(0, a - b))`. -/
def rederiveLine (originalIndent : Str) (oldLines : List Str) (j : Nat) (line : Str) : Str :=
  if j = 0 then originalIndent ++ trimStart line
  else
    let oldIndent := leadingWS (oldLines.getD j [])
    let newIndent := leadingWS line
    if oldIndent ≠ [] ∧ newIndent ≠ [] then
      originalIndent ++
        List.replicate (newIndent.length - oldIndent.length) ' ' ++ trimStart line
    else line

/-- The `splice` of part_001:365: replace the window at `i` by the
re-indented replacement lines. -/
def fuzzyReplaceAt (contentLines oldLines newLines0 : List Str) (i : Nat) : List Str :=
  let originalIndent := leadingWS (contentLines.getD i [])
  let newLines := newLines0.mapIdx fun j line => rederiveLine originalIndent oldLines j line
  contentLines.take i ++ newLines ++ contentLines.drop (i + oldLines.length)

/-- Modelled from the spec: "each subsequent replacement line takes the
original indentation plus the *difference* in indentation width between
the corresponding search line and replacement line (so relative
indentation changes are preserved even though absolute indentation is
re-based)" — the signed width `|originalIndent| + |newIndent| - |oldIndent|`
(clamped at zero only because a line cannot be indented negatively),
rendered in spaces.  Used to state what the claim predicts, versus what
`rederiveLine` does. -/
def claimedRederiveLine (originalIndent : Str) (oldLines : List Str) (j : Nat)
    (line : Str) : Str :=
  if j = 0 then originalIndent ++ trimStart line
  else
    List.replicate
      (originalIndent.length + (leadingWS line).length -
        (leadingWS (oldLines.getD j [])).length) ' ' ++ trimStart line

/-- Modelled from the spec: the window replacement under the claimed
indentation rule. -/
def claimedFuzzyReplaceAt (contentLines oldLines newLines0 : List Str)
    (i : Nat) : List Str :=
  let originalIndent := leadingWS (contentLines.getD i [])
  contentLines.take i ++
    newLines0.mapIdx (fun j line => claimedRederiveLine originalIndent oldLines j line) ++
    contentLines.drop (i + oldLines.length)

/-- One iteration of the edit loop (part_001:331-373): exact substring
replacement if possible, else the whitespace-tolerant line-window match;
`none` when neither matches. -/
def applyEdit (content : Str) (e : Edit) : Option Str :=
  let normalizedOld := normalizeLineEndings e.oldText
  let normalizedNew := normalizeLineEndings e.newText
  if includesS content normalizedOld then
    some (replaceFirst content normalizedOld normalizedNew)
  else
    let oldLines := splitOnChar '\n' normalizedOld
    let contentLines := splitOnChar '\n' content
    match firstMatch contentLines oldLines with
    | some i =>
      some (joinWithChar '\n'
        (fuzzyReplaceAt contentLines oldLines (splitOnChar '\n' normalizedNew) i))
    | none => none

/-- The error thrown at part_001:372 carries the raw (unnormalized)
`edit.oldText`. -/
def editErrMsg (e : Edit) : Str := "Could not find exact match for edit:\n".data ++ e.oldText

/-- The whole edit loop: apply edits sequentially, abort on first failure. -/
def applyEditsGo : Str → List Edit → Except Str Str
  | content, [] => .ok content
  | content, e :: rest =>
    match applyEdit content e with
    | some c => applyEditsGo c rest
    | none => .error (editErrMsg e)

def backtick : Char := Char.ofNat 96

/-- The fence-sizing loop of part_001:378-381: grow `n` from 3 while the
diff still contains a run of `n` fence characters. -/
def numBackticksGo (diff : Str) (n : Nat) : Nat :=
  if h : includesS diff (List.replicate n backtick) then
    numBackticksGo diff (n + 1)
  else n
termination_by diff.length + 1 - n
decreasing_by
  have key : ∀ (s pat : Str), includesS s pat = true → pat.length ≤ s.length := by
    intro s
    induction s with
    | nil =>
      intro pat hp
      cases pat with
      | nil => simp
      | cons a r =>
        rw [includesS] at hp
        simp [List.isPrefixOf] at hp
    | cons c rest ih =>
      intro pat hp
      rw [includesS, Bool.or_eq_true] at hp
      rcases hp with hp | hp
      · exact (List.isPrefixOf_iff_prefix.mp hp).length_le
      · exact le_trans (ih pat hp) (by simp)
  have := key diff (List.replicate n backtick) h
  simp only [List.length_replicate] at this
  omega

def numBackticksFor (diff : Str) : Nat := numBackticksGo diff 3

/-- part_001:382: the fenced rendering of the diff. -/
def formattedDiff (diff : Str) : Str :=
  List.replicate (numBackticksFor diff) backtick ++ "diff\n".data ++ diff ++
    List.replicate (numBackticksFor diff) backtick ++ "\n\n".data

/-- The length of the leading run of fence characters. -/
def leadRun (s : Str) : Nat := (s.takeWhile (fun c => c == backtick)).length

/-- The longest run of fence characters anywhere in `s` (the maximum of the
leading runs of all suffixes). -/
def longestRun : Str → Nat
  | [] => 0
  | c :: cs => max (leadRun (c :: cs)) (longestRun cs)

/-- `applyFileEdits(filePath, edits, dryRun)` as a transformer of the target
file's on-disk content (part_001:326-401).  `mkDiff` abstracts the external
`createTwoFilesPatch` library call; the temp-file write and rename of the
non-dry-run branch happen only after every edit has matched, and are
modelled as the final content replacing the disk content.  On a failed
edit the function throws before any write, so the disk is returned
unchanged. -/
def applyFileEditsFs (mkDiff : Str → Str → Str) (disk : Str) (edits : List Edit)
    (dryRun : Bool) : Except Str Str × Str :=
  let content := normalizeLineEndings disk
  match applyEditsGo content edits with
  | .error msg => (.error msg, disk)
  | .ok modifiedContent =>
    let diff := mkDiff content modifiedContent
    (.ok (formattedDiff diff), if dryRun then disk else modifiedContent)

/-! ## Definitions: streaming tail / head (`tailFile` / `headFile`,
part_001:413-492) -/

/-- The backward chunk loop of `tailFile` (part_001:428-450).  State:
`position` (file offset still unread), `lines` (accumulated complete lines,
`linesFound = lines.length`), `remaining` (the provisionally incomplete
first line of the chunk read last).  `c` is the file's byte content; each
read returns the `min 1024 position` bytes ending at `position`. -/
def tailGo (c : Str) (numLines : Nat) (position : Nat) (lines : List Str)
    (remaining : Str) : List Str :=
  if hpos : 0 < position then
    if lines.length < numLines then
      let size := min 1024 position
      let pos' := position - size
      let readData := (c.drop pos').take size
      if readData.length = 0 then lines
      else
        let chunkText := readData ++ remaining
        let chunkLines := splitOnChar '\n' (normalizeLineEndings chunkText)
        let pr : List Str × Str :=
          if 0 < pos' then (chunkLines.tail, chunkLines.headD [])
          else (chunkLines, [])
        let need := numLines - lines.length
        tailGo c numLines pos' (pr.1.drop (pr.1.length - need) ++ lines) pr.2
    else lines
  else lines
termination_by position
decreasing_by
  have h1 : min 1024 position ≤ position := min_le_right 1024 position
  have h2 : 0 < min 1024 position := lt_min (by norm_num) hpos
  omega

/-- `tailFile(filePath, numLines)` (part_001:413-456) as a function of the
file content. -/
def tailFile (c : Str) (numLines : Nat) : Str :=
  if c.length = 0 then []
  else joinWithChar '\n' (tailGo c numLines c.length [] [])

/-- The forward chunk loop of `headFile` (part_001:466-482).  State: `pos`
(bytes read so far), `buffer` (text after the last processed newline),
`lines` (complete lines collected).  Returns the final `(lines, buffer)`
pair. -/
def headGo (c : Str) (numLines : Nat) (pos : Nat) (buffer : Str)
    (lines : List Str) : List Str × Str :=
  if lines.length < numLines then
    if hr : ((c.drop pos).take 1024).length = 0 then (lines, buffer)
    else
      let buffer' := buffer ++ (c.drop pos).take 1024
      match lastIndexOfChar '\n' buffer' with
      | none => headGo c numLines (pos + ((c.drop pos).take 1024).length) buffer' lines
      | some idx =>
        headGo c numLines (pos + ((c.drop pos).take 1024).length)
          (buffer'.drop (idx + 1))
          (lines ++ (splitOnChar '\n' (buffer'.take idx)).take (numLines - lines.length))
  else (lines, buffer)
termination_by c.length - pos
decreasing_by
  all_goals
    have hlen : ((c.drop pos).take 1024).length = min 1024 (c.length - pos) := by
      simp
    omega

/-- The post-processing of `headFile` (part_001:484-486): append the
leftover partial line when lines are still needed. -/
def headPost (numLines : Nat) (res : List Str × Str) : List Str :=
  if res.2.length > 0 ∧ res.1.length < numLines then res.1 ++ [res.2] else res.1

/-- `headFile(filePath, numLines)` (part_001:458-492) as a function of the
file content: run the loop, then append any leftover partial line
(part_001:484-486). -/
def headFile (c : Str) (numLines : Nat) : Str :=
  joinWithChar '\n' (headPost numLines (headGo c numLines 0 [] []))

/-- The lines of a file's content, in the JS `content.split('\n')`
convention. -/
def fileLines (c : Str) : List Str := splitOnChar '\n' c

/-! ## Definitions: path validation (`validatePath`, part_001:172-194) -/

/-- A path, as its list of components below the filesystem root. -/
abbrev FPath := List Str

inductive FsErr where
  | enoent
  | eother
deriving DecidableEq

/-- A filesystem access performed by a handler (used to state in which
order validation and content reads happen). -/
inductive FsAccess where
  | realpathAcc : FPath → FsAccess
  | readAcc : FPath → FsAccess
deriving DecidableEq

/-- The ambient filesystem, abstracted by its `realpath` resolution (symlink
resolution included) and its file contents. -/
structure MFs where
  realpath : FPath → Except FsErr FPath
  readFile : FPath → Except FsErr Str

inductive VError where
  | parentNotFound : FPath → VError
  | ioError : VError
deriving DecidableEq

/-- `validatePath(requestedPath)` (part_001:172-194) together with the log
of `fs.realpath` accesses it performs.  The input is taken already
absolute (`expandHome` / `path.resolve` are identities on the component
lists we model).  Note: the function returns the resolved path without
ever consulting `allowedDirectories`; the source contains no containment
check. -/
def validatePathT (fs : MFs) (p : FPath) : Except VError FPath × List FsAccess :=
  match fs.realpath p with
  | .ok realPath => (.ok realPath, [.realpathAcc p])
  | .error .enoent =>
    match fs.realpath p.dropLast with
    | .ok realParent =>
      (.ok (realParent ++ [p.getLastD []]),
        [.realpathAcc p, .realpathAcc p.dropLast])
    | .error _ =>
      (.error (.parentNotFound p.dropLast),
        [.realpathAcc p, .realpathAcc p.dropLast])
  | .error .eother => (.error .ioError, [.realpathAcc p])

def validatePath (fs : MFs) (p : FPath) : Except VError FPath :=
  (validatePathT fs p).1

/-- Modelled from the spec: "Reject — `PathEscape` — unless the canonical
result is equal to, or a descendant of, at least one entry in the current
RootSet."  No such check exists anywhere in the source; this definition
only serves to state containment in the claims. -/
def isWithinRoots (roots : List FPath) (p : FPath) : Bool :=
  roots.any fun r => r.isPrefixOf p

def renderPath (p : FPath) : Str := List.intercalate "/".data p

def vErrMsg : VError → Str
  | .parentNotFound parent => "Parent directory does not exist: ".data ++ renderPath parent
  | .ioError => "io error".data

/-- JS truthiness of an optional numeric argument (`parsed.data.head`,
`parsed.data.tail`): absent and `0` are falsy. -/
def truthy : Option Nat → Bool
  | none => false
  | some n => decide (n ≠ 0)

def bothHeadTailMsg : Str :=
  "Cannot specify both head and tail parameters simultaneously".data

def readErrMsg : Str := "read error".data

/-- The `read_file` handler (part_001:925-952) with its access log:
validate the path (which touches the filesystem through `realpath`), then
reject head+tail, then read.  The `tailFile`/`headFile` calls read the
file; they are modelled by one logged content read. -/
def readFileHandler (fs : MFs) (p : FPath) (hd tl : Option Nat) :
    Except Str Str × List FsAccess :=
  let v := validatePathT fs p
  match v.1 with
  | .error e => (.error (vErrMsg e), v.2)
  | .ok validPath =>
    if truthy hd ∧ truthy tl then (.error bothHeadTailMsg, v.2)
    else if truthy tl then
      match fs.readFile validPath with
      | .ok content => (.ok (tailFile content (tl.getD 0)), v.2 ++ [.readAcc validPath])
      | .error _ => (.error readErrMsg, v.2 ++ [.readAcc validPath])
    else if truthy hd then
      match fs.readFile validPath with
      | .ok content => (.ok (headFile content (hd.getD 0)), v.2 ++ [.readAcc validPath])
      | .error _ => (.error readErrMsg, v.2 ++ [.readAcc validPath])
    else
      match fs.readFile validPath with
      | .ok content => (.ok content, v.2 ++ [.readAcc validPath])
      | .error _ => (.error readErrMsg, v.2 ++ [.readAcc validPath])

/-! ## Definitions: mutation handlers (`write_file` part_001:973-1009,
`move_file` part_001:1130-1141) on a small file-store state -/

structure FsState where
  files : List (FPath × Str)

def FsState.lookup (st : FsState) (p : FPath) : Option Str :=
  List.lookup p st.files

def FsState.hasFile (st : FsState) (p : FPath) : Bool :=
  (st.lookup p).isSome

def FsState.erase (st : FsState) (p : FPath) : FsState :=
  ⟨st.files.filter fun pr => !(pr.1 == p)⟩

def FsState.set (st : FsState) (p : FPath) (c : Str) : FsState :=
  ⟨(p, c) :: (st.erase p).files⟩

/-- Which of the fallible steps of the overwrite branch fail, and with
which error detail. -/
structure MutOracle where
  tempWriteErr : Option Str
  renameErr : Option Str
  unlinkFails : Bool

/-- part_001:989: `` `${validPath}.${randomBytes(16).toString('hex')}.tmp` ``;
`hex` abstracts the random suffix. -/
def tempName (p : FPath) (hex : Str) : FPath :=
  p.dropLast ++ [p.getLastD [] ++ ".".data ++ hex ++ ".tmp".data]

def writeSuccessMsg (p : FPath) : Str :=
  "Successfully wrote to ".data ++ renderPath p

/-- The `write_file` handler body after validation (part_001:979-1008).
The exclusive-create (`wx`) write fails with `EEXIST` exactly when the
target exists; the handler then writes a sibling temp file and renames it
onto the target, unlinking the temp file best-effort (its own failure
swallowed) if the write or rename fails, and re-throwing the original
error. -/
def writeFileHandler (st : FsState) (p : FPath) (content : Str) (hex : Str)
    (o : MutOracle) : Except Str Str × FsState :=
  if st.hasFile p then
    let tempPath := tempName p hex
    match o.tempWriteErr with
    | some e =>
      -- temp write failed: no temp file was created; `unlink` fails and is
      -- swallowed; the original error propagates with the state unchanged
      (.error e, st)
    | none =>
      let st1 := st.set tempPath content
      match o.renameErr with
      | some e =>
        (.error e, if o.unlinkFails then st1 else st1.erase tempPath)
      | none =>
        (.ok (writeSuccessMsg p), (st1.erase tempPath).set p content)
  else
    (.ok (writeSuccessMsg p), st.set p content)

def moveSuccessMsg (src dst : FPath) : Str :=
  "Successfully moved ".data ++ renderPath src ++ " to ".data ++ renderPath dst

/-- The `move_file` handler body after both endpoints validated
(part_001:1135-1140): a single `fs.rename`, which on POSIX replaces an
existing destination silently. -/
def moveFileHandler (st : FsState) (src dst : FPath) : Except Str Str × FsState :=
  match st.lookup src with
  | none => (.error "rename: no such file or directory".data, st)
  | some content => (.ok (moveSuccessMsg src dst), (st.erase src).set dst content)

/-! ## Definitions: recursive search (`searchFiles`, part_001:282-315) -/

/-- Try `matchRest` on every suffix of the input (the expansion of a `*`
wildcard over zero or more characters, or of `**` over zero or more
segments). -/
def starExpand {α : Type} (matchRest : List α → Bool) : List α → Bool
  | [] => matchRest []
  | c :: s' => matchRest (c :: s') || starExpand matchRest s'

/-- Modelled from the spec / the `minimatch` library (not part of this
repository): match one glob segment against one path segment, `*` matching
any run of characters. -/
def segMatch : Str → Str → Bool
  | [], s => s.isEmpty
  | '*' :: ps, s => starExpand (segMatch ps) s
  | p :: ps, [] => false
  | p :: ps, c :: s => p == c && segMatch ps s

def isGlobStar (p : Str) : Bool := p == "**".data

/-- Modelled from the spec / the `minimatch` library: match a list of glob
segments against a list of path segments; a `**` segment matches zero or
more path segments. -/
def globSegsMatch : List Str → List Str → Bool
  | [], segs => segs.isEmpty
  | p :: ps, segs =>
    if isGlobStar p then starExpand (globSegsMatch ps) segs
    else
      match segs with
      | [] => false
      | s :: rest => segMatch p s && globSegsMatch ps rest

/-- part_001:294: a pattern without a wildcard becomes
`` `**/${pattern}/**` ``; one with a wildcard is used as given. -/
def toGlobSegs (p : Str) : List Str :=
  if includesS p "*".data then splitOnChar '/' p
  else splitOnChar '/' ("**/".data ++ p ++ "/**".data)

/-- part_001:293-296: does the relative path (as segments) match any
exclusion pattern? -/
def relMatches (excludePatterns : List Str) (relSegs : List Str) : Bool :=
  excludePatterns.any fun pat => globSegsMatch (toGlobSegs pat) relSegs

def toLowerS (s : Str) : Str := s.map Char.toLower

/-- part_001:300: case-insensitive substring match of the search pattern
against an entry's base name. -/
def nameMatches (pattern name : Str) : Bool :=
  includesS (toLowerS name) (toLowerS pattern)

/-- A directory tree: entry names are path components (no `/`).  Symlinks
are not modelled; on such a tree the per-child `validatePath` call of the
walker always succeeds and is omitted. -/
inductive FTree where
  | file : Str → FTree
  | dir : Str → List FTree → FTree

def FTree.name : FTree → Str
  | .file n => n
  | .dir n _ => n

mutual
/-- Processing of one directory entry in the loop of part_001:286-311:
skip it (and its subtree) if its relative path matches an exclusion
pattern, otherwise emit it when its name matches and recurse when it is a
directory.  `rel` is the entry's path relative to the search root. -/
def searchEntry (excludePatterns : List Str) (pattern : Str) (rel : List Str)
    (t : FTree) : List (List Str) :=
  if relMatches excludePatterns rel then []
  else
    (if nameMatches pattern t.name then [rel] else []) ++
      (match t with
       | .file _ => []
       | .dir _ children => searchForest excludePatterns pattern rel children)

/-- The loop over a directory's entries (part_001:286), in order. -/
def searchForest (excludePatterns : List Str) (pattern : Str) (rel : List Str) :
    List FTree → List (List Str)
  | [] => []
  | t :: ts =>
    searchEntry excludePatterns pattern (rel ++ [t.name]) t ++
      searchForest excludePatterns pattern rel ts
end

/-- `searchFiles(rootPath, pattern, excludePatterns)` (part_001:282-315)
over the tree of entries below the root, returning full result paths in
discovery order. -/
def searchFiles (root : FPath) (pattern : Str) (excludePatterns : List Str)
    (entries : List FTree) : List FPath :=
  (searchForest excludePatterns pattern [] entries).map fun q => root ++ q

mutual
/-- All relative paths of the entries of a tree, in depth-first discovery
order (each entry before its subtree). -/
def entryPaths : FTree → List (List Str)
  | .file n => [[n]]
  | .dir n children => [n] :: (forestEntries children).map fun q => n :: q

def forestEntries : List FTree → List (List Str)
  | [] => []
  | t :: ts => entryPaths t ++ forestEntries ts
end

/-- Some nonempty prefix of the relative path `q` (the entry itself or one
of its ancestors below the root) matches an exclusion pattern. -/
def prefixExcluded (excludePatterns : List Str) (q : List Str) : Bool :=
  (List.range q.length).any fun k => relMatches excludePatterns (q.take (k + 1))

/-- The same scan for an entry at relative path `rel ++ q`, restricted to
the prefixes properly extending `rel`. -/
def prefixExcludedFrom (excludePatterns : List Str) (rel q : List Str) : Bool :=
  (List.range q.length).any fun k =>
    relMatches excludePatterns ((rel ++ q).take (rel.length + k + 1))

/-! ## Definitions: concrete data for counterexamples and witnesses -/

def wsC : Str := "ws".data
def linkC : Str := "link".data
def passwdC : Str := "passwd".data
def etcC : Str := "etc".data
def secretC : Str := "root:x:0:0:root:/root:/bin/bash".data

/-- A filesystem with allowed root `/ws` containing a symlink
`/ws/link -> /etc`: resolving `/ws/link/passwd` yields `/etc/passwd`
(the spec's own concrete escape scenario). -/
def escFs : MFs where
  realpath := fun q =>
    if q = [wsC, linkC, passwdC] then .ok [etcC, passwdC]
    else if q = [etcC, passwdC] then .ok [etcC, passwdC]
    else if q = [wsC] then .ok [wsC]
    else .error .enoent
  readFile := fun q =>
    if q = [etcC, passwdC] then .ok secretC else .error .enoent

/-- A filesystem on which every path resolves to itself and every read
succeeds. -/
def plainFs : MFs where
  realpath := fun q => .ok q
  readFile := fun _ => .ok "data".data

/-- A filesystem containing only the directory `/ws`: creation targets
below `/ws` have a resolvable parent, anything deeper does not. -/
def newFileFs : MFs where
  realpath := fun q => if q = [wsC] then .ok [wsC] else .error .enoent
  readFile := fun _ => .error .enoent

/-- A concrete file content longer than the 1 KiB chunk size: three lines
(600 a's, 600 b's, "tail"), no carriage return, no trailing newline. -/
def c4File : Str :=
  List.replicate 600 'a' ++ '\n' :: List.replicate 600 'b' ++ '\n' :: "tail".data

/-! ## Theorems: text primitives -/

theorem normalizeLineEndings_of_no_cr (s : Str) (h : '\r' ∉ s) :
    normalizeLineEndings s = s := by
  induction s using normalizeLineEndings.induct with
  | case1 => rfl
  | case2 c => rfl
  | case3 c d rest hcd ih =>
    exact absurd hcd.1 (fun hh => h (hh ▸ List.mem_cons_self c (d :: rest)))
  | case4 c d rest hcd ih =>
    rw [normalizeLineEndings, if_neg hcd,
      ih (fun hh => h (List.mem_cons_of_mem c hh))]

theorem splitOnChar_ne_nil (sep : Char) (s : Str) : splitOnChar sep s ≠ [] := by
  cases s with
  | nil => simp [splitOnChar]
  | cons c cs => by_cases h : c = sep <;> simp [splitOnChar, h]

theorem splitOnChar_cons_sep (sep : Char) (cs : Str) :
    splitOnChar sep (sep :: cs) = [] :: splitOnChar sep cs := by
  simp [splitOnChar]

theorem splitOnChar_cons_ne (sep c : Char) (cs : Str) (h : c ≠ sep) :
    splitOnChar sep (c :: cs) =
      (c :: (splitOnChar sep cs).headD []) :: (splitOnChar sep cs).tail := by
  simp [splitOnChar, h]

/-- Convenient cons form: the split is never empty. -/
theorem splitOnChar_eq_cons (sep : Char) (s : Str) :
    splitOnChar sep s =
      (splitOnChar sep s).headD [] :: (splitOnChar sep s).tail := by
  rcases h : splitOnChar sep s with _ | ⟨a, r⟩
  · exact absurd h (splitOnChar_ne_nil sep s)
  · rfl

/-- Elements produced by the split never contain the separator. -/
theorem not_mem_of_mem_splitOnChar (sep : Char) (s : Str) :
    ∀ l ∈ splitOnChar sep s, sep ∉ l := by
  induction s with
  | nil => intro l hl; simp [splitOnChar] at hl; simp [hl]
  | cons c cs ih =>
    intro l hl
    rcases hr : splitOnChar sep cs with _ | ⟨a, r⟩
    · exact absurd hr (splitOnChar_ne_nil sep cs)
    · by_cases h : c = sep
      · subst h
        rw [splitOnChar_cons_sep, hr] at hl
        rcases List.mem_cons.mp hl with h1 | h1
        · simp [h1]
        · exact ih l (hr ▸ h1)
      · rw [splitOnChar_cons_ne sep c cs h, hr] at hl
        rcases List.mem_cons.mp hl with h1 | h1
        · subst h1
          intro hmem
          rcases List.mem_cons.mp hmem with h2 | h2
          · exact h h2.symm
          · exact ih a (hr ▸ List.mem_cons_self a r) h2
        · exact ih l (hr ▸ List.mem_cons_of_mem a h1)

/-- The split of a separator-free string is the singleton list. -/
theorem splitOnChar_of_not_mem (sep : Char) (s : Str) (h : sep ∉ s) :
    splitOnChar sep s = [s] := by
  induction s with
  | nil => rfl
  | cons c cs ih =>
    have hc : c ≠ sep := fun hh => h (hh ▸ List.mem_cons_self c cs)
    have hcs : sep ∉ cs := fun hh => h (List.mem_cons_of_mem c hh)
    rw [splitOnChar_cons_ne sep c cs hc, ih hcs]
    rfl

theorem joinWithChar_singleton (sep : Char) (l : Str) :
    joinWithChar sep [l] = l := by
  simp [joinWithChar, List.intercalate]

theorem joinWithChar_cons (sep : Char) (l a : Str) (r : List Str) :
    joinWithChar sep (l :: a :: r) = l ++ sep :: joinWithChar sep (a :: r) := by
  simp [joinWithChar, List.intercalate, List.intersperse]

/-- Splitting then joining is the identity. -/
theorem joinWithChar_splitOnChar (sep : Char) (s : Str) :
    joinWithChar sep (splitOnChar sep s) = s := by
  induction s with
  | nil => rfl
  | cons c cs ih =>
    rcases hr : splitOnChar sep cs with _ | ⟨a, r⟩
    · exact absurd hr (splitOnChar_ne_nil sep cs)
    · by_cases h : c = sep
      · rw [h, splitOnChar_cons_sep, hr, joinWithChar_cons, ← hr, ih]; rfl
      · rw [splitOnChar_cons_ne sep c cs h, hr]
        cases r with
        | nil =>
          rw [hr, joinWithChar_singleton] at ih
          simp only [List.headD, List.tail]
          rw [joinWithChar_singleton, ih]
        | cons b r' =>
          rw [hr, joinWithChar_cons] at ih
          simp only [List.headD, List.tail]
          rw [joinWithChar_cons, List.cons_append, ih]

/-- How splitting acts on a concatenation: the boundary pieces merge. -/
theorem splitOnChar_append (sep : Char) (a b : Str) :
    splitOnChar sep (a ++ b) =
      (splitOnChar sep a).dropLast ++
        ((splitOnChar sep a).getLastD [] ++ (splitOnChar sep b).headD []) ::
          (splitOnChar sep b).tail := by
  induction a with
  | nil =>
    rcases hb : splitOnChar sep b with _ | ⟨x, r⟩
    · exact absurd hb (splitOnChar_ne_nil sep b)
    · simpa [splitOnChar] using hb
  | cons c cs ih =>
    rcases hr : splitOnChar sep cs with _ | ⟨x, r⟩
    · exact absurd hr (splitOnChar_ne_nil sep cs)
    · by_cases h : c = sep
      · rw [h, List.cons_append, splitOnChar_cons_sep, splitOnChar_cons_sep, ih,
          hr]
        cases r with
        | nil => simp
        | cons y q => simp
      · rw [List.cons_append, splitOnChar_cons_ne sep c _ h,
          splitOnChar_cons_ne sep c cs h, ih, hr]
        cases r with
        | nil =>
          rcases hbb : splitOnChar sep b with _ | ⟨y, q⟩
          · exact absurd hbb (splitOnChar_ne_nil sep b)
          · simp
        | cons z r' => simp

theorem includesS_iff_isInfix (s pat : Str) :
    includesS s pat = true ↔ pat <:+: s := by
  induction s with
  | nil =>
    rw [includesS]
    simp only [Bool.or_false]
    rw [List.isPrefixOf_iff_prefix, List.infix_nil, List.prefix_nil]
  | cons c rest ih =>
    rw [includesS, Bool.or_eq_true, List.isPrefixOf_iff_prefix, ih]
    constructor
    · rintro (h | h)
      · exact h.isInfix
      · exact h.trans (List.suffix_cons c rest).isInfix
    · intro h
      rcases h with ⟨s₁, s₂, hs⟩
      cases s₁ with
      | nil => left; exact ⟨s₂, by simpa using hs⟩
      | cons x xs =>
        right
        injection hs with h1 h2
        exact h2 ▸ ⟨xs, s₂, by simp⟩

theorem length_le_of_includesS (s pat : Str) (h : includesS s pat = true) :
    pat.length ≤ s.length :=
  ((includesS_iff_isInfix s pat).mp h).length_le

/-! ## Theorems: the backtick fence (C9) -/

theorem leadRun_cons_backtick (cs : Str) :
    leadRun (backtick :: cs) = leadRun cs + 1 := by
  simp [leadRun, List.takeWhile_cons]

theorem leadRun_cons_ne (c : Char) (cs : Str) (h : c ≠ backtick) :
    leadRun (c :: cs) = 0 := by
  simp [leadRun, List.takeWhile_cons, h]

theorem replicate_isPrefixOf_iff_leadRun (n : Nat) (t : Str) :
    (List.replicate n backtick).isPrefixOf t = true ↔ n ≤ leadRun t := by
  induction n generalizing t with
  | zero => simp [List.isPrefixOf]
  | succ n ih =>
    cases t with
    | nil => simp [List.replicate_succ, List.isPrefixOf, leadRun]
    | cons c cs =>
      rw [List.replicate_succ]
      by_cases hc : c = backtick
      · subst hc
        simp only [List.isPrefixOf, beq_self_eq_true, Bool.true_and]
        rw [ih cs, leadRun_cons_backtick]
        omega
      · have h2 : (backtick == c) = false :=
          beq_eq_false_iff_ne.mpr (fun hh => hc hh.symm)
        simp only [List.isPrefixOf, h2, Bool.false_and]
        rw [leadRun_cons_ne c cs hc]
        simp

theorem leadRun_le_longestRun (s t : Str) (h : t <:+ s) :
    leadRun t ≤ longestRun s := by
  induction s with
  | nil =>
    rw [List.suffix_nil.mp h]
    simp [leadRun, longestRun]
  | cons c cs ih =>
    rcases h with ⟨pre, hpre⟩
    cases pre with
    | nil =>
      simp at hpre
      rw [hpre, longestRun]
      exact le_max_left _ _
    | cons x xs =>
      injection hpre with h1 h2
      rw [longestRun]
      exact le_trans (ih ⟨xs, h2⟩) (le_max_right _ _)

theorem includesS_replicate_iff_longestRun (s : Str) (n : Nat) :
    includesS s (List.replicate n backtick) = true ↔ n ≤ longestRun s := by
  induction s with
  | nil =>
    rw [includesS]
    simp only [Bool.or_false]
    rw [replicate_isPrefixOf_iff_leadRun]
    simp [leadRun, longestRun]
  | cons c cs ih =>
    rw [includesS, Bool.or_eq_true, replicate_isPrefixOf_iff_leadRun, ih,
      longestRun]
    omega

theorem numBackticksGo_eq (diff : Str) (n : Nat) :
    numBackticksGo diff n = max n (longestRun diff + 1) := by
  induction n using numBackticksGo.induct diff with
  | case1 n h ih =>
    rw [numBackticksGo, dif_pos h, ih]
    have := (includesS_replicate_iff_longestRun diff n).mp h
    omega
  | case2 n h =>
    rw [numBackticksGo, dif_neg h]
    have : ¬ n ≤ longestRun diff := fun hle =>
      h ((includesS_replicate_iff_longestRun diff n).mpr hle)
    omega

theorem numBackticksFor_eq (diff : Str) :
    numBackticksFor diff = max 3 (longestRun diff + 1) := by
  rw [numBackticksFor, numBackticksGo_eq]

/-- C9 (counterexample): a realistic rendered diff containing no backtick at
all is wrapped with a fence of 3 backticks, not `longest run + 1 = 1`: the
claimed equality fails whenever the longest run is shorter than 2. -/
theorem backtickFence_counterexample :
    numBackticksFor "--- file\n+++ file\n@@ -1 +1 @@\n-foo\n+baz\n".data ≠
      longestRun "--- file\n+++ file\n@@ -1 +1 @@\n-foo\n+baz\n".data + 1 := by
  rw [numBackticksFor_eq]
  decide

/-- C9 (amended): the fence length chosen by `applyFileEdits` is the larger
of 3 and one more than the longest backtick run in the diff; in particular
the diff never contains a run as long as the fence, so the fence cannot be
closed prematurely by the diff's own content. -/
theorem backtickFence_length (diff : Str) :
    numBackticksFor diff = max 3 (longestRun diff + 1) ∧
      includesS diff (List.replicate (numBackticksFor diff) backtick) = false := by
  refine ⟨numBackticksFor_eq diff, ?_⟩
  have h1 : ¬ numBackticksFor diff ≤ longestRun diff := by
    rw [numBackticksFor_eq]
    omega
  cases h : includesS diff (List.replicate (numBackticksFor diff) backtick) with
  | false => rfl
  | true => exact absurd ((includesS_replicate_iff_longestRun diff _).mp h) h1

/-! ## Theorems: the edit loop is all-or-nothing (C2) -/

/-- If the first `k` edits apply and edit `k` then fails, the whole loop
throws that edit's error. -/
theorem applyEditsGo_fail_at (k : Nat) :
    ∀ (edits : List Edit) (content c' : Str) (d : Edit),
      k < edits.length →
      applyEditsGo content (edits.take k) = .ok c' →
      applyEdit c' (edits.getD k d) = none →
      applyEditsGo content edits = .error (editErrMsg (edits.getD k d)) := by
  induction k with
  | zero =>
    intro edits content c' d hk hpre hfail
    cases edits with
    | nil => simp at hk
    | cons e rest =>
      rw [List.take_zero, applyEditsGo] at hpre
      injection hpre with hc
      rw [List.getD_cons_zero] at hfail ⊢
      rw [applyEditsGo, hc, hfail]
  | succ k ih =>
    intro edits content c' d hk hpre hfail
    cases edits with
    | nil => simp at hk
    | cons e rest =>
      rw [List.take_succ_cons, applyEditsGo] at hpre
      rw [List.getD_cons_succ] at hfail ⊢
      cases happ : applyEdit content e with
      | none => rw [happ] at hpre; exact absurd hpre (by simp)
      | some c1 =>
        rw [happ] at hpre
        rw [applyEditsGo, happ]
        exact ih rest c1 c' d (by simpa using hk) hpre hfail

/-- C2: if some edit `e_k` matches neither exactly nor fuzzily against the
content produced by `e_1..e_(k-1)`, `applyFileEdits` fails with the error
carrying `e_k.oldText`, and the file on disk is byte-identical to before
the call, for any `dryRun` flag; moreover (last conjunct, for arbitrary
inputs) the disk content changes only when every edit succeeded and
`dryRun` is false, in which case it becomes the edit loop's final
content. -/
theorem applyFileEdits_all_or_nothing (mkDiff : Str → Str → Str) (disk : Str)
    (edits : List Edit) (dryRun : Bool) (k : Nat) (c' : Str) (d : Edit)
    (hk : k < edits.length)
    (hpre : applyEditsGo (normalizeLineEndings disk) (edits.take k) = .ok c')
    (hfail : applyEdit c' (edits.getD k d) = none) :
    (applyFileEditsFs mkDiff disk edits dryRun).1 =
        .error (editErrMsg (edits.getD k d)) ∧
      (applyFileEditsFs mkDiff disk edits dryRun).2 = disk ∧
      ∀ (disk₂ : Str) (edits₂ : List Edit) (dr₂ : Bool),
        (applyFileEditsFs mkDiff disk₂ edits₂ dr₂).2 ≠ disk₂ →
        dr₂ = false ∧
          applyEditsGo (normalizeLineEndings disk₂) edits₂ =
            .ok ((applyFileEditsFs mkDiff disk₂ edits₂ dr₂).2) := by
  have hloop := applyEditsGo_fail_at k edits (normalizeLineEndings disk) c' d hk hpre hfail
  refine ⟨?_, ?_, ?_⟩
  · rw [applyFileEditsFs, hloop]
  · rw [applyFileEditsFs, hloop]
  · intro disk₂ edits₂ dr₂ hne
    rw [applyFileEditsFs] at hne ⊢
    cases hgo : applyEditsGo (normalizeLineEndings disk₂) edits₂ with
    | error msg => rw [hgo] at hne; simp at hne
    | ok m =>
      rw [hgo] at hne
      cases dr₂ with
      | true => simp at hne
      | false => exact ⟨rfl, by simpa using hgo⟩

/-- C2 (witness): concrete instance — the second of two edits fails to
match, the call reports that edit's search text and the disk content is
unchanged. -/
theorem applyFileEdits_all_or_nothing_witness :
    (applyFileEditsFs (fun _ _ => []) "hello world".data
          [⟨"hello".data, "hi".data⟩, ⟨"zzz".data, "y".data⟩] false).1 =
        .error (editErrMsg ⟨"zzz".data, "y".data⟩) ∧
      (applyFileEditsFs (fun _ _ => []) "hello world".data
          [⟨"hello".data, "hi".data⟩, ⟨"zzz".data, "y".data⟩] false).2 =
        "hello world".data := by
  have h := applyFileEdits_all_or_nothing (fun _ _ => []) "hello world".data
    [⟨"hello".data, "hi".data⟩, ⟨"zzz".data, "y".data⟩] false 1 "hi world".data
    ⟨[], []⟩ (by decide) (by decide) (by decide)
  exact ⟨h.1, h.2.1⟩

/-! ## Theorems: the fuzzy matcher (C3) -/

/-- The linear scan returns the first matching index when one exists in
range. -/
theorem findMatchIdx_finds (contentLines oldLines : List Str) (i0 : Nat) :
    ∀ (fuel i : Nat), i ≤ i0 → i0 < i + fuel →
      matchesAt contentLines oldLines i0 = true →
      (∀ j, j < i0 → matchesAt contentLines oldLines j = false) →
      findMatchIdx contentLines oldLines i fuel = some i0 := by
  intro fuel
  induction fuel with
  | zero => intro i hle hlt _ _; omega
  | succ fuel ih =>
    intro i hle hlt hm hfirst
    rw [findMatchIdx]
    by_cases hi : i = i0
    · rw [hi, if_pos hm]
    · have hilt : i < i0 := lt_of_le_of_ne hle hi
      rw [if_neg (by rw [hfirst i hilt]; simp)]
      exact ih (i + 1) (by omega) (by omega) hm hfirst

theorem firstMatch_eq_some (contentLines oldLines : List Str) (i0 : Nat)
    (hwin : i0 + oldLines.length ≤ contentLines.length)
    (hol : oldLines ≠ [])
    (hm : matchesAt contentLines oldLines i0 = true)
    (hfirst : ∀ j, j < i0 → matchesAt contentLines oldLines j = false) :
    firstMatch contentLines oldLines = some i0 := by
  have holp : 0 < oldLines.length := List.length_pos.mpr hol
  exact findMatchIdx_finds contentLines oldLines i0
    (contentLines.length + 1 - oldLines.length) 0 (Nat.zero_le i0)
    (by omega) hm hfirst

/-- C3 (amended): when the search text has no exact occurrence and its
earliest trim-tolerant window match is at `i0`, the edit replaces that
window (`fuzzyReplaceAt`); the first replacement line takes exactly the
window's first content line's indentation, a later line with nonempty
indentation on both the search and replacement side takes that indentation
plus the replacement-minus-search indent-width difference clamped at zero
(spaces), and a later line whose search-side or own indentation is empty
is kept verbatim. -/
theorem applyEdit_fuzzy (content : Str) (e : Edit) (i0 : Nat)
    (hnex : includesS content (normalizeLineEndings e.oldText) = false)
    (hwin : i0 + (splitOnChar '\n' (normalizeLineEndings e.oldText)).length ≤
      (splitOnChar '\n' content).length)
    (hm : matchesAt (splitOnChar '\n' content)
      (splitOnChar '\n' (normalizeLineEndings e.oldText)) i0 = true)
    (hfirst : ∀ j, j < i0 → matchesAt (splitOnChar '\n' content)
      (splitOnChar '\n' (normalizeLineEndings e.oldText)) j = false) :
    applyEdit content e =
        some (joinWithChar '\n'
          (fuzzyReplaceAt (splitOnChar '\n' content)
            (splitOnChar '\n' (normalizeLineEndings e.oldText))
            (splitOnChar '\n' (normalizeLineEndings e.newText)) i0)) ∧
      (∀ (ind : Str) (OL : List Str) (line : Str),
        rederiveLine ind OL 0 line = ind ++ trimStart line) ∧
      (∀ (ind : Str) (OL : List Str) (j : Nat) (line : Str), 0 < j →
        leadingWS (OL.getD j []) ≠ [] → leadingWS line ≠ [] →
        rederiveLine ind OL j line =
          ind ++ List.replicate
              ((leadingWS line).length - (leadingWS (OL.getD j [])).length) ' ' ++
            trimStart line) ∧
      (∀ (ind : Str) (OL : List Str) (j : Nat) (line : Str), 0 < j →
        (leadingWS (OL.getD j []) = [] ∨ leadingWS line = []) →
        rederiveLine ind OL j line = line) := by
  refine ⟨?_, ?_, ?_, ?_⟩
  · rw [applyEdit]
    simp only [hnex, Bool.false_eq_true, if_false]
    rw [firstMatch_eq_some (splitOnChar '\n' content)
      (splitOnChar '\n' (normalizeLineEndings e.oldText)) i0 hwin
      (splitOnChar_ne_nil '\n' (normalizeLineEndings e.oldText)) hm hfirst]
  · intro ind OL line
    rw [rederiveLine, if_pos rfl]
  · intro ind OL j line hj h1 h2
    rw [rederiveLine, if_neg (by omega), if_pos ⟨h1, h2⟩]
  · intro ind OL j line hj hor
    rw [rederiveLine, if_neg (by omega)]
    rcases hor with h | h
    · rw [if_neg (by intro hand; exact hand.1 h)]
    · rw [if_neg (by intro hand; exact hand.2 h)]

/-- C3 (witness): the amended theorem applied at the concrete window
match of the counterexample input. -/
theorem applyEdit_fuzzy_witness :
    applyEdit "  x\n      y".data ⟨" x\n    y".data, "x\n  y".data⟩ =
      some (joinWithChar '\n'
        (fuzzyReplaceAt (splitOnChar '\n' "  x\n      y".data)
          (splitOnChar '\n' (normalizeLineEndings " x\n    y".data))
          (splitOnChar '\n' (normalizeLineEndings "x\n  y".data)) 0)) :=
  (applyEdit_fuzzy "  x\n      y".data ⟨" x\n    y".data, "x\n  y".data⟩ 0
    (by decide) (by decide) (by decide)
    (fun j hj => absurd hj (Nat.not_lt_zero j))).1

/-- C3 (counterexample): on the claim's own reading the second replacement
line of this fuzzy match would get indentation `2 + (2 - 4) = 0`
(`claimedFuzzyReplaceAt`, result `"  x\ny"`), but the code clamps the
negative difference to zero and produces `"  x\n  y"`: negative relative
indentation changes are not preserved. -/
theorem fuzzyIndent_counterexample :
    applyEdit "  x\n      y".data ⟨" x\n    y".data, "x\n  y".data⟩ =
        some "  x\n  y".data ∧
      joinWithChar '\n'
          (claimedFuzzyReplaceAt (splitOnChar '\n' "  x\n      y".data)
            (splitOnChar '\n' " x\n    y".data)
            (splitOnChar '\n' "x\n  y".data) 0) =
        "  x\ny".data ∧
      "  x\n  y".data ≠ "  x\ny".data :=
  ⟨by decide, by decide, by decide⟩

/-! ## Theorems: path validation (C1, C7, C8) -/

/-- C1 (code bug): `validatePath` (part_001:172-194) returns the resolved
path without ever consulting `allowedDirectories` — the source contains no
containment check at all.  On the spec's own scenario (allowed root `/ws`,
symlink `/ws/link -> /etc`), validation succeeds on `/ws/link/passwd`, the
`read_file` handler returns `/etc/passwd`'s content, and the canonical
result lies outside every allowed root: no operation fails with
`PathEscape`. -/
theorem validatePath_no_containment :
    validatePath escFs [wsC, linkC, passwdC] = .ok [etcC, passwdC] ∧
      (readFileHandler escFs [wsC, linkC, passwdC] none none).1 = .ok secretC ∧
      isWithinRoots [[wsC]] [etcC, passwdC] = false :=
  ⟨by decide, by decide, by decide⟩

/-- Every access performed by `validatePath` is a `realpath` resolution. -/
theorem validatePathT_log_realpath (fs : MFs) (p : FPath) :
    ∀ a ∈ (validatePathT fs p).2, ∃ q, a = .realpathAcc q := by
  rw [validatePathT]
  cases h : fs.realpath p with
  | ok rp => simp
  | error e =>
    cases e with
    | enoent =>
      cases h2 : fs.realpath p.dropLast with
      | ok rparent => simp
      | error e2 => simp
    | eother => simp

/-- C7 (counterexample): with both head and tail supplied, the handler does
fail with the both-head-and-tail error, but only after `validatePath` has
already touched the filesystem (the access log is nonempty); and with
`head = 0` (a falsy value) the check is bypassed entirely and no
invalid-argument error is raised. -/
theorem readHandler_counterexample :
    ((readFileHandler plainFs ["f".data] (some 1) (some 2)).1 =
          .error bothHeadTailMsg ∧
        (readFileHandler plainFs ["f".data] (some 1) (some 2)).2 ≠ []) ∧
      (readFileHandler plainFs ["f".data] (some 0) (some 2)).1 ≠
        .error bothHeadTailMsg :=
  ⟨⟨by decide, by decide⟩, by decide⟩

/-- C7 (amended): when both head and tail are supplied with nonzero (truthy)
values and path validation succeeds, the handler fails with the
invalid-argument error before reading any file content: its accesses are
exactly the validation's `realpath` resolutions. -/
theorem readHandler_both_head_tail (fs : MFs) (p : FPath) (n m : Nat) (vp : FPath)
    (hn : n ≠ 0) (hm : m ≠ 0) (hv : (validatePathT fs p).1 = .ok vp) :
    (readFileHandler fs p (some n) (some m)).1 = .error bothHeadTailMsg ∧
      (readFileHandler fs p (some n) (some m)).2 = (validatePathT fs p).2 ∧
      ∀ a ∈ (readFileHandler fs p (some n) (some m)).2, ∃ q, a = .realpathAcc q := by
  have h1 : truthy (some n) = true := by simp [truthy, hn]
  have h2 : truthy (some m) = true := by simp [truthy, hm]
  have hlog : (readFileHandler fs p (some n) (some m)).2 = (validatePathT fs p).2 := by
    simp [readFileHandler, hv, h1, h2]
  refine ⟨?_, hlog, ?_⟩
  · simp [readFileHandler, hv, h1, h2]
  · rw [hlog]
    exact validatePathT_log_realpath fs p

/-- C7 (witness): the amended theorem at a concrete filesystem and request. -/
theorem readHandler_both_head_tail_witness :
    (readFileHandler plainFs ["f".data] (some 1) (some 2)).1 =
        .error bothHeadTailMsg ∧
      (readFileHandler plainFs ["f".data] (some 1) (some 2)).2 =
        (validatePathT plainFs ["f".data]).2 := by
  have h := readHandler_both_head_tail plainFs ["f".data] 1 2 ["f".data]
    (by decide) (by decide) (by decide)
  exact ⟨h.1, h.2.1⟩

/-- C8: for a path whose final component does not exist (`realpath` fails
with `ENOENT`), `validatePath` canonicalizes the parent directory through
`realpath` and re-appends the original final component, so creation
targets are validated without existing; if the parent cannot be resolved
either, it fails with the parent-does-not-exist error. -/
theorem validatePath_creation_target (fs : MFs) (p : FPath)
    (henoent : fs.realpath p = .error .enoent) :
    (∀ rp, fs.realpath p.dropLast = .ok rp →
        validatePath fs p = .ok (rp ++ [p.getLastD []])) ∧
      ∀ e, fs.realpath p.dropLast = .error e →
        validatePath fs p = .error (.parentNotFound p.dropLast) := by
  constructor
  · intro rp hpar
    simp only [validatePath, validatePathT, henoent, hpar]
  · intro e hpar
    simp only [validatePath, validatePathT, henoent, hpar]

/-- C8 (witness): in a filesystem containing only `/ws`, the creation
target `/ws/new` validates to the resolved parent plus the original final
component, while `/ws/a/b` (whose parent does not exist) is rejected with
the parent-does-not-exist error. -/
theorem validatePath_creation_target_witness :
    validatePath newFileFs [wsC, "new".data] = .ok ([wsC] ++ ["new".data]) ∧
      validatePath newFileFs [wsC, "a".data, "b".data] =
        .error (.parentNotFound [wsC, "a".data]) := by
  constructor
  · exact (validatePath_creation_target newFileFs [wsC, "new".data]
      (by decide)).1 [wsC] (by decide)
  · exact (validatePath_creation_target newFileFs [wsC, "a".data, "b".data]
      (by decide)).2 .enoent (by decide)

/-! ## Theorems: mutation handlers (C5, C10) -/

theorem lookup_filter_ne (files : List (FPath × Str)) (p q : FPath) :
    List.lookup q (files.filter fun pr => !(pr.1 == p)) =
      if q = p then none else List.lookup q files := by
  induction files with
  | nil => split <;> simp
  | cons hd tl ih =>
    obtain ⟨k, v⟩ := hd
    by_cases hkp : k = p
    · subst hkp
      have hdrop : (!(k, v).1 == k) = false := by simp
      rw [List.filter_cons, hdrop]
      simp only [Bool.false_eq_true, if_false]
      rw [ih]
      by_cases hqk : q = k
      · subst hqk
        simp
      · rw [if_neg hqk, if_neg hqk]
        have hqk2 : (q == k) = false := beq_eq_false_iff_ne.mpr hqk
        simp [List.lookup, hqk2]
    · have hfk : (!(k, v).1 == p) = true := by
        simp [beq_eq_false_iff_ne.mpr hkp]
      rw [List.filter_cons, hfk]
      simp only [if_true]
      by_cases hqk : q = k
      · subst hqk
        have hqp : q ≠ p := hkp
        simp [List.lookup, if_neg hqp]
      · have hqk2 : (q == k) = false := beq_eq_false_iff_ne.mpr hqk
        simp [List.lookup, hqk2, ih]

theorem FsState.lookup_erase (st : FsState) (p q : FPath) :
    (st.erase p).lookup q = if q = p then none else st.lookup q := by
  rcases st with ⟨files⟩
  exact lookup_filter_ne files p q

theorem FsState.lookup_set (st : FsState) (p q : FPath) (c : Str) :
    (st.set p c).lookup q = if q = p then some c else st.lookup q := by
  by_cases h : q = p
  · subst h
    simp [FsState.set, FsState.lookup, List.lookup]
  · have hpq : (q == p) = false := beq_eq_false_iff_ne.mpr h
    simp only [FsState.set, FsState.lookup, List.lookup, hpq]
    have h2 : List.lookup q (st.erase p).files =
        if q = p then none else List.lookup q st.files :=
      lookup_filter_ne st.files p q
    rw [h2, if_neg h, if_neg h]

/-- The temp file's name extends the target's final component, so it is a
different sibling path in the same directory. -/
theorem tempName_ne (p : FPath) (hex : Str) : tempName p hex ≠ p := by
  intro h
  have hlast := congrArg (fun l => (l.getLastD ([] : Str)).length) h
  simp only [tempName, List.getLastD_concat] at hlast
  simp at hlast

/-- C5: when the target exists, the exclusive-create write fails with
`EEXIST` and the content is never written in place: it goes to the sibling
temp file `tempName p hex` and reaches the target only through the final
rename.  If the temp write fails the state is exactly unchanged; if the
rename fails the target still has its old content, the original error
propagates, and when the best-effort unlink succeeds the temp file is gone
(its failure is swallowed); on success the target has the new content and
the temp file is gone. -/
theorem writeFile_overwrite_atomic (st : FsState) (p : FPath) (content hex : Str)
    (o : MutOracle) (hp : st.hasFile p = true) :
    (o.tempWriteErr = none → o.renameErr = none →
        (writeFileHandler st p content hex o).1 = .ok (writeSuccessMsg p) ∧
        ((writeFileHandler st p content hex o).2).lookup p = some content ∧
        ((writeFileHandler st p content hex o).2).lookup (tempName p hex) = none) ∧
      (∀ e, o.tempWriteErr = some e →
        writeFileHandler st p content hex o = (.error e, st)) ∧
      (∀ e, o.tempWriteErr = none → o.renameErr = some e →
        (writeFileHandler st p content hex o).1 = .error e ∧
        ((writeFileHandler st p content hex o).2).lookup p = st.lookup p ∧
        (o.unlinkFails = false →
          ((writeFileHandler st p content hex o).2).lookup (tempName p hex) = none)) := by
  obtain ⟨tw, rn, uf⟩ := o
  have hne := tempName_ne p hex
  have hne' : p ≠ tempName p hex := fun h => hne h.symm
  refine ⟨?_, ?_, ?_⟩
  · rintro rfl rfl
    have hw : writeFileHandler st p content hex ⟨none, none, uf⟩ =
        (.ok (writeSuccessMsg p),
          ((st.set (tempName p hex) content).erase (tempName p hex)).set p content) := by
      rw [writeFileHandler, if_pos hp]
    rw [hw]
    refine ⟨rfl, ?_, ?_⟩
    · rw [FsState.lookup_set]
      simp
    · rw [FsState.lookup_set, if_neg hne, FsState.lookup_erase]
      simp
  · rintro e rfl
    rw [writeFileHandler, if_pos hp]
  · rintro e rfl rfl
    cases uf with
    | false =>
      have hw : writeFileHandler st p content hex ⟨none, some e, false⟩ =
          (.error e, (st.set (tempName p hex) content).erase (tempName p hex)) := by
        rw [writeFileHandler, if_pos hp]
        rfl
      rw [hw]
      refine ⟨rfl, ?_, fun _ => ?_⟩
      · rw [FsState.lookup_erase, if_neg hne', FsState.lookup_set, if_neg hne']
      · rw [FsState.lookup_erase]
        simp
    | true =>
      have hw : writeFileHandler st p content hex ⟨none, some e, true⟩ =
          (.error e, st.set (tempName p hex) content) := by
        rw [writeFileHandler, if_pos hp]
        rfl
      rw [hw]
      refine ⟨rfl, ?_, ?_⟩
      · rw [FsState.lookup_set, if_neg hne']
      · intro h
        simp at h

/-- C5 (witness): a successful overwrite of an existing file through the
temp-and-rename path, at concrete inputs. -/
theorem writeFile_overwrite_atomic_witness :
    ((writeFileHandler ⟨[(["a".data], "old".data)]⟩ ["a".data] "new".data
          "ff".data ⟨none, none, false⟩).2).lookup ["a".data] =
        some "new".data ∧
      ((writeFileHandler ⟨[(["a".data], "old".data)]⟩ ["a".data] "new".data
          "ff".data ⟨none, none, false⟩).2).lookup
          (tempName ["a".data] "ff".data) = none := by
  have h := writeFile_overwrite_atomic ⟨[(["a".data], "old".data)]⟩ ["a".data]
    "new".data "ff".data ⟨none, none, false⟩ (by decide)
  exact ⟨(h.1 rfl rfl).2.1, (h.1 rfl rfl).2.2⟩

/-- C10: `move_file` performs no existence check on the destination: when
both endpoints exist, the single rename succeeds, the destination's old
content is silently replaced by the source's, and the source is gone. -/
theorem moveFile_replaces_dest (st : FsState) (src dst : FPath) (cs cd : Str)
    (hsrc : st.lookup src = some cs) (hdst : st.lookup dst = some cd)
    (hne : src ≠ dst) :
    (moveFileHandler st src dst).1 = .ok (moveSuccessMsg src dst) ∧
      ((moveFileHandler st src dst).2).lookup dst = some cs ∧
      ((moveFileHandler st src dst).2).lookup src = none := by
  have hw : moveFileHandler st src dst =
      (.ok (moveSuccessMsg src dst), (st.erase src).set dst cs) := by
    rw [moveFileHandler, hsrc]
  rw [hw]
  refine ⟨rfl, ?_, ?_⟩
  · rw [FsState.lookup_set]
    simp
  · rw [FsState.lookup_set, if_neg hne, FsState.lookup_erase]
    simp

/-- C10 (witness): moving `a` onto an existing `b` succeeds and replaces
`b`'s content. -/
theorem moveFile_replaces_dest_witness :
    (moveFileHandler ⟨[(["a".data], "ca".data), (["b".data], "cb".data)]⟩
          ["a".data] ["b".data]).1 =
        .ok (moveSuccessMsg ["a".data] ["b".data]) ∧
      ((moveFileHandler ⟨[(["a".data], "ca".data), (["b".data], "cb".data)]⟩
          ["a".data] ["b".data]).2).lookup ["b".data] = some "ca".data ∧
      ((moveFileHandler ⟨[(["a".data], "ca".data), (["b".data], "cb".data)]⟩
          ["a".data] ["b".data]).2).lookup ["a".data] = none :=
  moveFile_replaces_dest ⟨[(["a".data], "ca".data), (["b".data], "cb".data)]⟩
    ["a".data] ["b".data] "ca".data "cb".data (by decide) (by decide) (by decide)

/-! ## Theorems: recursive search (C6) -/

theorem entryPaths_shape (t : FTree) :
    ∀ q ∈ entryPaths t, ∃ q', q = t.name :: q' := by
  cases t with
  | file n =>
    intro q hq
    rw [entryPaths] at hq
    simp at hq
    exact ⟨[], by simp [hq, FTree.name]⟩
  | dir n children =>
    intro q hq
    rw [entryPaths] at hq
    rcases List.mem_cons.mp hq with h | h
    · exact ⟨[], by simp [h, FTree.name]⟩
    · obtain ⟨q', hq', rfl⟩ := List.mem_map.mp h
      exact ⟨q', rfl⟩

theorem forestEntries_ne_nil (ts : List FTree) :
    ∀ q ∈ forestEntries ts, q ≠ [] := by
  induction ts with
  | nil => intro q hq; rw [forestEntries] at hq; simp at hq
  | cons t ts' ih =>
    intro q hq
    rw [forestEntries] at hq
    rcases List.mem_append.mp hq with h | h
    · obtain ⟨q', rfl⟩ := entryPaths_shape t q h
      simp
    · exact ih q h

/-- Taking just past the first appended element. -/
theorem take_append_cons (rel : List Str) (a : Str) (q : List Str) :
    (rel ++ a :: q).take (rel.length + 1) = rel ++ [a] := by
  rw [List.append_cons]
  have h := @List.take_append _ (rel ++ [a]) q 0
  simpa using h

/-- Splitting the ancestor scan of a one-longer relative path. -/
theorem prefixExcludedFrom_cons (excl : List Str) (rel : List Str) (a : Str)
    (q : List Str) :
    prefixExcludedFrom excl rel (a :: q) =
      (relMatches excl (rel ++ [a]) || prefixExcludedFrom excl (rel ++ [a]) q) := by
  rw [prefixExcludedFrom, prefixExcludedFrom]
  simp only [List.length_cons, List.range_succ_eq_map, List.any_cons, List.any_map]
  congr 1
  · apply congrArg
    rw [show rel.length + 0 + 1 = rel.length + 1 by omega]
    exact take_append_cons rel a q
  · apply congrArg
    funext k
    simp only [Function.comp_apply]
    apply congrArg
    rw [List.append_cons]
    congr 1
    · simp
      omega

theorem getLastD_cons_of_ne_nil (a : Str) (q : List Str) (h : q ≠ []) :
    (a :: q).getLastD [] = q.getLastD [] := by
  cases q with
  | nil => exact absurd rfl h
  | cons b l => simp [List.getLastD_cons]

theorem prefixExcludedFrom_nil (excl : List Str) (rel : List Str) :
    prefixExcludedFrom excl rel [] = false := by
  simp [prefixExcludedFrom]

/-- The walker, at any already-unexcluded relative position `rel`, returns
exactly the unexcluded pattern-matching entries below it. -/
theorem searchForest_spec (excl : List Str) (pattern : Str) :
    ∀ (n : Nat) (ts : List FTree), sizeOf ts ≤ n →
      ∀ rel : List Str,
        (∀ k, k < rel.length → relMatches excl (rel.take (k + 1)) = false) →
        searchForest excl pattern rel ts =
          ((forestEntries ts).filter fun q =>
            nameMatches pattern (q.getLastD []) &&
              !prefixExcludedFrom excl rel q).map
            (fun q => rel ++ q) := by
  intro n
  induction n with
  | zero =>
    intro ts hsz rel hrel
    exact absurd hsz (by cases ts <;> simp)
  | succ n ih =>
    intro ts hsz rel hrel
    cases ts with
    | nil => rw [searchForest, forestEntries]; simp
    | cons t ts' =>
      have hszt : sizeOf ts' ≤ n := by
        have hs := List.cons.sizeOf_spec t ts'
        have h1 : 1 ≤ sizeOf t := by cases t <;> simp_arith
        omega
      rw [searchForest, forestEntries, List.filter_append, List.map_append]
      congr 1
      · -- the entry `t` itself and its subtree
        rw [searchEntry.eq_def]
        by_cases hExc : relMatches excl (rel ++ [t.name]) = true
        · rw [if_pos hExc]
          symm
          rw [List.map_eq_nil_iff, List.filter_eq_nil_iff]
          intro q hq
          obtain ⟨q', rfl⟩ := entryPaths_shape t q hq
          have hpe : prefixExcludedFrom excl rel (t.name :: q') = true := by
            rw [prefixExcludedFrom_cons, hExc]
            simp
          simp [hpe]
        · have hExcF : relMatches excl (rel ++ [t.name]) = false := by
            simpa using hExc
          rw [if_neg hExc]
          cases t with
          | file name =>
            simp only [FTree.name] at hExcF ⊢
            rw [entryPaths]
            have hpe : prefixExcludedFrom excl rel [name] = false := by
              rw [prefixExcludedFrom_cons, hExcF, prefixExcludedFrom_nil]
              rfl
            simp only [List.filter_cons, List.filter_nil, List.getLastD_cons,
              List.getLastD_nil, hpe, Bool.not_false, Bool.and_true]
            by_cases hnm : nameMatches pattern name = true
            · rw [if_pos hnm, if_pos hnm]
              simp
            · have hnmF : nameMatches pattern name = false := by simpa using hnm
              rw [if_neg hnm, if_neg (by rw [hnmF]; simp)]
              simp
          | dir name children =>
            simp only [FTree.name] at hExcF ⊢
            have hszc : sizeOf children ≤ n := by
              have hs := List.cons.sizeOf_spec (FTree.dir name children) ts'
              have hd : sizeOf (FTree.dir name children) =
                  1 + sizeOf name + sizeOf children := by simp
              omega
            have hrel' : ∀ k, k < (rel ++ [name]).length →
                relMatches excl ((rel ++ [name]).take (k + 1)) = false := by
              intro k hk
              simp only [List.length_append, List.length_singleton] at hk
              by_cases hkr : k < rel.length
              · have htk : (rel ++ [name]).take (k + 1) = rel.take (k + 1) := by
                  rw [List.take_append_eq_append_take]
                  have hz : k + 1 - rel.length = 0 := by omega
                  rw [hz]
                  simp
                rw [htk]
                exact hrel k hkr
              · have hke : k = rel.length := by omega
                subst hke
                have htk : (rel ++ [name]).take (rel.length + 1) = rel ++ [name] := by
                  have hl : rel.length + 1 = (rel ++ [name]).length := by simp
                  rw [hl, List.take_length]
                rw [htk]
                exact hExcF
            have hIH := ih children hszc (rel ++ [name]) hrel'
            have hpe : prefixExcludedFrom excl rel [name] = false := by
              rw [prefixExcludedFrom_cons, hExcF, prefixExcludedFrom_nil]
              rfl
            have hsub : searchForest excl pattern (rel ++ [name]) children =
                ((forestEntries children).filter fun q =>
                  nameMatches pattern ((name :: q).getLastD []) &&
                    !prefixExcludedFrom excl rel (name :: q)).map
                  (fun q => rel ++ name :: q) := by
              rw [hIH]
              have hf : (forestEntries children).filter
                    (fun q => nameMatches pattern (q.getLastD []) &&
                      !prefixExcludedFrom excl (rel ++ [name]) q) =
                  (forestEntries children).filter
                    (fun q => nameMatches pattern ((name :: q).getLastD []) &&
                      !prefixExcludedFrom excl rel (name :: q)) := by
                apply List.filter_congr
                intro q hq
                have hne := forestEntries_ne_nil children q hq
                rw [prefixExcludedFrom_cons, hExcF]
                simp only [Bool.false_or]
                rw [getLastD_cons_of_ne_nil name q hne]
              rw [hf]
              apply List.map_congr_left
              intro q hq
              simp
            rw [entryPaths, hsub]
            simp only [List.filter_cons, List.filter_map, List.map_map,
              List.map_cons, List.getLastD_cons, List.getLastD_nil, hpe,
              Bool.not_false, Bool.and_true, Function.comp]
            by_cases hnm : nameMatches pattern name = true
            · rw [if_pos hnm, if_pos hnm, List.map_cons, List.map_map]
              simp only [Function.comp_def, List.getLastD_cons]
              rfl
            · rw [if_neg hnm, if_neg hnm, List.map_map]
              simp only [Function.comp_def, List.getLastD_cons]
              rfl
      · exact ih ts' hszt rel hrel

theorem prefixExcludedFrom_nil_rel (excl : List Str) (q : List Str) :
    prefixExcludedFrom excl [] q = prefixExcluded excl q := by
  rw [prefixExcludedFrom, prefixExcluded]
  apply congrArg
  funext k
  simp

/-- C6: `searchFiles` returns exactly the descendant entries whose base
name contains the pattern case-insensitively and none of whose
relative-path prefixes (the entry itself or any ancestor below the search
root) matches an exclusion glob — so an excluded directory's entire
subtree is absent; non-matching directories are still recursed into (their
matching descendants appear); and with an empty exclusion list every
case-insensitively matching descendant is returned. -/
theorem searchFiles_characterization (root : FPath) (pattern : Str)
    (excludePatterns : List Str) (entries : List FTree) :
    searchFiles root pattern excludePatterns entries =
      ((forestEntries entries).filter fun q =>
        nameMatches pattern (q.getLastD []) &&
          !prefixExcluded excludePatterns q).map (fun q => root ++ q) ∧
      searchFiles root pattern [] entries =
        ((forestEntries entries).filter fun q =>
          nameMatches pattern (q.getLastD [])).map (fun q => root ++ q) := by
  have hmain : ∀ excl : List Str,
      searchFiles root pattern excl entries =
        ((forestEntries entries).filter fun q =>
          nameMatches pattern (q.getLastD []) && !prefixExcluded excl q).map
          (fun q => root ++ q) := by
    intro excl
    rw [searchFiles]
    rw [searchForest_spec excl pattern (sizeOf entries) entries le_rfl []
      (fun k hk => absurd hk (by simp))]
    rw [List.map_map]
    have hf : (forestEntries entries).filter
          (fun q => nameMatches pattern (q.getLastD []) &&
            !prefixExcludedFrom excl [] q) =
        (forestEntries entries).filter
          (fun q => nameMatches pattern (q.getLastD []) &&
            !prefixExcluded excl q) := by
      apply List.filter_congr
      intro q hq
      rw [prefixExcludedFrom_nil_rel]
    rw [hf]
    apply List.map_congr_left
    intro q hq
    simp
  refine ⟨hmain excludePatterns, ?_⟩
  rw [hmain []]
  apply congrArg
  apply List.filter_congr
  intro q hq
  simp [prefixExcluded, relMatches]

/-! ## Theorems: streaming tail and head (C4) -/

/-- Characters of split elements come from the split string. -/
theorem splitOnChar_subset (sep : Char) (s : Str) :
    ∀ l ∈ splitOnChar sep s, ∀ ch ∈ l, ch ∈ s := by
  induction s with
  | nil =>
    intro l hl ch hch
    simp [splitOnChar] at hl
    subst hl
    simp at hch
  | cons c cs ih =>
    intro l hl ch hch
    rcases hr : splitOnChar sep cs with _ | ⟨a, r⟩
    · exact absurd hr (splitOnChar_ne_nil sep cs)
    · by_cases h : c = sep
      · subst h
        rw [splitOnChar_cons_sep, hr] at hl
        rcases List.mem_cons.mp hl with h1 | h1
        · subst h1; simp at hch
        · exact List.mem_cons_of_mem _ (ih l (hr ▸ h1) ch hch)
      · rw [splitOnChar_cons_ne sep c cs h, hr] at hl
        rcases List.mem_cons.mp hl with h1 | h1
        · subst h1
          rcases List.mem_cons.mp hch with h2 | h2
          · simp [h2]
          · exact List.mem_cons_of_mem _
              (ih a (hr ▸ List.mem_cons_self a r) ch h2)
        · exact List.mem_cons_of_mem _
            (ih l (hr ▸ List.mem_cons_of_mem a h1) ch hch)

theorem drop_sub_append (T R : List Str) (n : Nat) (h : R.length ≤ n) :
    (T ++ R).drop (T.length + R.length - n) =
      T.drop (T.length - (n - R.length)) ++ R := by
  have hk : T.length + R.length - n = T.length - (n - R.length) := by omega
  rw [hk, List.drop_append_of_le_length (by omega)]

theorem drop_sub_append_right (Z R : List Str) (n : Nat) (h : n ≤ R.length) :
    (Z ++ R).drop (Z.length + R.length - n) = R.drop (R.length - n) := by
  have hk : Z.length + R.length - n = Z.length + (R.length - n) := by omega
  rw [hk, List.drop_append]

/-- Invariant proof for the backward chunk loop: starting anywhere with the
suffix already split into the carried partial first line `remaining` and
the processed complete lines `rest` (of which `lines` keeps the last
`numLines`), the loop computes the last `numLines` lines of the whole
file. -/
theorem tailGo_spec (c : Str) (numLines : Nat) (hcr : '\r' ∉ c) :
    ∀ position : Nat, 0 < position → position ≤ c.length →
      ∀ (lines : List Str) (remaining : Str) (rest : List Str),
        splitOnChar '\n' (c.drop position) = remaining :: rest →
        lines = rest.drop (rest.length - numLines) →
        tailGo c numLines position lines remaining =
          (splitOnChar '\n' c).drop ((splitOnChar '\n' c).length - numLines) := by
  intro position
  induction position using Nat.strong_induction_on with
  | _ position ih =>
    intro hp hple lines remaining rest hsplit hlines
    have hcut : splitOnChar '\n' c =
        ((splitOnChar '\n' (c.take position)).dropLast ++
          [(splitOnChar '\n' (c.take position)).getLastD [] ++ remaining]) ++ rest := by
      conv_lhs => rw [← List.take_append_drop position c]
      rw [splitOnChar_append, hsplit]
      simp
    by_cases hl : lines.length < numLines
    · have hrl : rest.length < numLines := by
        have h1 : lines.length = rest.length - (rest.length - numLines) := by
          rw [hlines, List.length_drop]
        omega
      have hlr : lines = rest := by
        rw [hlines, Nat.sub_eq_zero_of_le (le_of_lt hrl), List.drop_zero]
      rw [tailGo, dif_pos hp, if_pos hl]
      dsimp only
      have hszpos : 0 < 1024 ⊓ position := lt_min (by norm_num) hp
      have hszle : 1024 ⊓ position ≤ position := min_le_right 1024 position
      have hrdlen : ((c.drop (position - 1024 ⊓ position)).take (1024 ⊓ position)).length =
          1024 ⊓ position := by
        rw [List.length_take, List.length_drop]
        omega
      rw [if_neg (by rw [hrdlen]; omega)]
      have hnocrdata :
          '\r' ∉ (c.drop (position - 1024 ⊓ position)).take (1024 ⊓ position) ++ remaining := by
        intro hmem
        rcases List.mem_append.mp hmem with hm | hm
        · exact hcr (List.mem_of_mem_drop (List.mem_of_mem_take hm))
        · exact hcr (List.mem_of_mem_drop
            (splitOnChar_subset '\n' (c.drop position) remaining
              (hsplit ▸ List.mem_cons_self _ _) '\r' hm))
      rw [normalizeLineEndings_of_no_cr _ hnocrdata]
      have hdropsplit : c.drop (position - 1024 ⊓ position) =
          (c.drop (position - 1024 ⊓ position)).take (1024 ⊓ position) ++ c.drop position := by
        conv_lhs =>
          rw [← List.take_append_drop (1024 ⊓ position) (c.drop (position - 1024 ⊓ position))]
        rw [List.drop_drop]
        congr 2
        omega
      have hremsplit : splitOnChar '\n' remaining = [remaining] :=
        splitOnChar_of_not_mem '\n' remaining
          (not_mem_of_mem_splitOnChar '\n' (c.drop position) remaining
            (hsplit ▸ List.mem_cons_self _ _))
      have hCL : splitOnChar '\n' (c.drop (position - 1024 ⊓ position)) =
          splitOnChar '\n'
              ((c.drop (position - 1024 ⊓ position)).take (1024 ⊓ position) ++ remaining) ++
            rest := by
        conv_lhs => rw [hdropsplit]
        rw [splitOnChar_append, splitOnChar_append, hsplit, hremsplit]
        simp
      set CL := splitOnChar '\n'
          ((c.drop (position - 1024 ⊓ position)).take (1024 ⊓ position) ++ remaining)
        with hCLdef
      have hCLcons : CL = CL.headD [] :: CL.tail := splitOnChar_eq_cons '\n' _
      by_cases hpz : 0 < position - 1024 ⊓ position
      · rw [if_pos hpz]
        dsimp only
        have hsplit1 : splitOnChar '\n' (c.drop (position - 1024 ⊓ position)) =
            CL.headD [] :: (CL.tail ++ rest) := by
          rw [hCL]
          conv_lhs => rw [hCLcons]
          rw [List.cons_append]
        have hlines1 : CL.tail.drop (CL.tail.length - (numLines - lines.length)) ++ lines =
            (CL.tail ++ rest).drop ((CL.tail ++ rest).length - numLines) := by
          rw [List.length_append, drop_sub_append CL.tail rest numLines (le_of_lt hrl), hlr]
        exact ih (position - 1024 ⊓ position) (by omega) hpz (by omega) _ _ _
          hsplit1 hlines1
      · rw [if_neg hpz]
        dsimp only
        have hpz0 : position - 1024 ⊓ position = 0 := by omega
        rw [hpz0, tailGo, dif_neg (Nat.lt_irrefl 0)]
        have hc0 : splitOnChar '\n' c = CL ++ rest := by
          have h2 := hCL
          rw [hpz0] at h2
          simpa using h2
        rw [hc0, hlr, List.length_append]
        exact (drop_sub_append CL rest numLines (le_of_lt hrl)).symm
    · rw [tailGo, dif_pos hp, if_neg hl]
      have hrge : numLines ≤ rest.length := by
        have h1 : lines.length = rest.length - (rest.length - numLines) := by
          rw [hlines, List.length_drop]
        omega
      rw [hlines, hcut, List.length_append]
      exact (drop_sub_append_right _ rest numLines hrge).symm

theorem lastIndexOfChar_none (ch : Char) (s : Str) :
    lastIndexOfChar ch s = none ↔ ch ∉ s := by
  induction s with
  | nil => simp [lastIndexOfChar]
  | cons a t ih =>
    rw [lastIndexOfChar]
    rcases ht : lastIndexOfChar ch t with _ | k
    · by_cases ha : a = ch
      · simp [ha]
      · simp [ha]
        exact ⟨fun h2 => ha h2.symm, ih.mp ht⟩
    · simp
      intro _
      by_contra h2
      simp [ih.mpr h2] at ht

theorem lastIndexOfChar_decomp (ch : Char) (s : Str) :
    ∀ idx, lastIndexOfChar ch s = some idx →
      s = s.take idx ++ ch :: s.drop (idx + 1) ∧ ch ∉ s.drop (idx + 1) := by
  induction s with
  | nil => intro idx h; simp [lastIndexOfChar] at h
  | cons a t ih =>
    intro idx h
    rw [lastIndexOfChar] at h
    rcases ht : lastIndexOfChar ch t with _ | k
    · rw [ht] at h
      by_cases ha : a = ch
      · rw [if_pos ha] at h
        injection h with h
        subst h
        subst ha
        refine ⟨by simp, ?_⟩
        simpa using (lastIndexOfChar_none a t).mp ht
      · rw [if_neg ha] at h
        cases h
    · rw [ht] at h
      injection h with h
      subst h
      obtain ⟨h1, h2⟩ := ih k ht
      refine ⟨?_, ?_⟩
      · rw [List.take_succ_cons, List.drop_succ_cons, List.cons_append]
        exact congrArg (a :: ·) h1
      · rw [List.drop_succ_cons]
        exact h2

theorem dropLast_concat_getLastD {α : Type} (d : α) :
    ∀ l : List α, l ≠ [] → l.dropLast ++ [l.getLastD d] = l := by
  intro l
  induction l generalizing d with
  | nil => intro h; exact absurd rfl h
  | cons a t ih =>
    intro _
    cases t with
    | nil => rfl
    | cons b r =>
      rw [List.dropLast_cons_of_ne_nil (by simp), List.getLastD_cons, List.cons_append]
      exact congrArg (a :: ·) (ih a (by simp))

theorem splitOnChar_last_decomp (ch : Char) (b : Str) (idx : Nat)
    (h : lastIndexOfChar ch b = some idx) :
    splitOnChar ch b = splitOnChar ch (b.take idx) ++ [b.drop (idx + 1)] := by
  obtain ⟨h1, h2⟩ := lastIndexOfChar_decomp ch b idx h
  conv_lhs => rw [h1]
  rw [splitOnChar_append, splitOnChar_cons_sep, splitOnChar_of_not_mem ch _ h2]
  have h3 := dropLast_concat_getLastD [] (splitOnChar ch (b.take idx))
    (splitOnChar_ne_nil ch (b.take idx))
  simp only [List.headD_cons, List.tail_cons, List.append_nil]
  conv_rhs => rw [← h3]
  simp

theorem take_length_take (l : Str) (n : Nat) : l.take ((l.take n).length) = l.take n := by
  rw [List.length_take]
  rcases le_total n l.length with h | h
  · rw [min_eq_left h]
  · rw [min_eq_right h, List.take_length, List.take_of_length_le h]

/-- Exit of the head loop with enough lines collected. -/
theorem headGo_spec_exitA (c : Str) (numLines : Nat) (pos : Nat) (buffer : Str)
    (lines Lfull : List Str)
    (hsp : splitOnChar '\n' (c.take pos) = Lfull ++ [buffer])
    (hlines : lines = Lfull.take numLines) (hl : ¬ lines.length < numLines) :
    headPost numLines (headGo c numLines pos buffer lines) =
      (splitOnChar '\n' c).take numLines := by
  rw [headGo, if_neg hl, headPost, if_neg (fun h => hl h.2)]
  have hn : numLines ≤ Lfull.length := by
    have h1 := congrArg List.length hlines
    rw [List.length_take] at h1
    omega
  have hsplit_c : splitOnChar '\n' c =
      Lfull ++ ((buffer ++ (splitOnChar '\n' (c.drop pos)).headD []) ::
        (splitOnChar '\n' (c.drop pos)).tail) := by
    conv_lhs => rw [← List.take_append_drop pos c]
    rw [splitOnChar_append, hsp, List.dropLast_concat, List.getLastD_concat]
  rw [hsplit_c]
  conv_rhs => rw [List.take_append_eq_append_take]
  rw [Nat.sub_eq_zero_of_le hn]
  simp [hlines]

/-- Exit of the head loop at end of file, lines still needed. -/
theorem headGo_spec_exitB (c : Str) (numLines : Nat) (buffer : Str)
    (lines Lfull : List Str)
    (hlast : (splitOnChar '\n' c).getLastD [] ≠ [])
    (hsp : splitOnChar '\n' c = Lfull ++ [buffer])
    (hlines : lines = Lfull.take numLines) (hl : lines.length < numLines) :
    headPost numLines (lines, buffer) = (splitOnChar '\n' c).take numLines := by
  have hLf : Lfull.length < numLines := by
    have h1 := congrArg List.length hlines
    rw [List.length_take] at h1
    omega
  have hfl : lines = Lfull := by
    rw [hlines, List.take_of_length_le (le_of_lt hLf)]
  have hbuf : buffer ≠ [] := by
    rw [hsp, List.getLastD_concat] at hlast
    exact hlast
  rw [headPost, if_pos ⟨List.length_pos.mpr hbuf, hl⟩, hsp, hfl,
    List.take_of_length_le]
  rw [List.length_append, List.length_singleton]
  omega

/-- Invariant proof of the forward chunk loop of `headFile`: `buffer` holds
the text after the last processed newline, `Lfull` the complete lines seen
so far, `lines` their first `numLines`; the loop followed by the leftover
post-processing yields the first `numLines` lines of the file. -/
theorem headGo_spec (c : Str) (numLines : Nat)
    (hlast : (splitOnChar '\n' c).getLastD [] ≠ []) :
    ∀ (k pos : Nat) (buffer : Str) (lines Lfull : List Str),
      c.length - pos ≤ k → pos ≤ c.length → '\n' ∉ buffer →
      splitOnChar '\n' (c.take pos) = Lfull ++ [buffer] →
      lines = Lfull.take numLines →
      headPost numLines (headGo c numLines pos buffer lines) =
        (splitOnChar '\n' c).take numLines := by
  intro k
  induction k with
  | zero =>
    intro pos buffer lines Lfull hk hle hb hsp hlines
    by_cases hl : lines.length < numLines
    · have hpos : pos = c.length := by omega
      subst hpos
      rw [headGo, if_pos hl, dif_pos (by simp)]
      exact headGo_spec_exitB c numLines buffer lines Lfull hlast
        (by simpa using hsp) hlines hl
    · exact headGo_spec_exitA c numLines pos buffer lines Lfull hsp hlines hl
  | succ k ih =>
    intro pos buffer lines Lfull hk hle hb hsp hlines
    by_cases hl : lines.length < numLines
    · rw [headGo, if_pos hl]
      by_cases hr : ((c.drop pos).take 1024).length = 0
      · rw [dif_pos hr]
        have hpos : pos = c.length := by
          rw [List.length_take, List.length_drop] at hr
          omega
        subst hpos
        exact headGo_spec_exitB c numLines buffer lines Lfull hlast
          (by simpa using hsp) hlines hl
      · rw [dif_neg hr]
        dsimp only
        have hchunklen : ((c.drop pos).take 1024).length = min 1024 (c.length - pos) := by
          rw [List.length_take, List.length_drop]
        have hle2 : pos + ((c.drop pos).take 1024).length ≤ c.length := by
          rw [hchunklen]; omega
        have hk2 : c.length - (pos + ((c.drop pos).take 1024).length) ≤ k := by
          rw [hchunklen] at hr ⊢
          omega
        have htake2 : c.take (pos + ((c.drop pos).take 1024).length) =
            c.take pos ++ (c.drop pos).take 1024 := by
          rw [List.take_add c pos ((c.drop pos).take 1024).length,
            take_length_take (c.drop pos) 1024]
        have hsp2 : splitOnChar '\n' (c.take (pos + ((c.drop pos).take 1024).length)) =
            Lfull ++ splitOnChar '\n' (buffer ++ (c.drop pos).take 1024) := by
          rw [htake2, splitOnChar_append, hsp, List.dropLast_concat, List.getLastD_concat,
            splitOnChar_append, splitOnChar_of_not_mem '\n' buffer hb]
          simp
        rcases hidx : lastIndexOfChar '\n' (buffer ++ (c.drop pos).take 1024) with _ | idx
        · simp only [hidx]
          have hb2 : '\n' ∉ buffer ++ (c.drop pos).take 1024 :=
            (lastIndexOfChar_none '\n' _).mp hidx
          apply ih _ _ _ Lfull hk2 hle2 hb2 ?_ hlines
          rw [hsp2, splitOnChar_of_not_mem '\n' _ hb2]
        · simp only [hidx]
          have hdec := splitOnChar_last_decomp '\n' (buffer ++ (c.drop pos).take 1024) idx hidx
          have hnb2 : '\n' ∉ (buffer ++ (c.drop pos).take 1024).drop (idx + 1) :=
            (lastIndexOfChar_decomp '\n' (buffer ++ (c.drop pos).take 1024) idx hidx).2
          apply ih _ _ _
            (Lfull ++ splitOnChar '\n' ((buffer ++ (c.drop pos).take 1024).take idx))
            hk2 hle2 hnb2 ?_ ?_
          · rw [hsp2, hdec, List.append_assoc]
          · have hLf : Lfull.length < numLines := by
              have h1 := congrArg List.length hlines
              rw [List.length_take] at h1
              omega
            have hfl : lines = Lfull := by
              rw [hlines, List.take_of_length_le (le_of_lt hLf)]
            conv_rhs => rw [List.take_append_eq_append_take]
            rw [List.take_of_length_le (le_of_lt hLf), hfl]
    · exact headGo_spec_exitA c numLines pos buffer lines Lfull hsp hlines hl

theorem splitOnChar_getLastD_ne_nil (sep : Char) (c : Str) (hc : c ≠ [])
    (hl : c.getLastD sep ≠ sep) : (splitOnChar sep c).getLastD [] ≠ [] := by
  have hdec : c.dropLast ++ [c.getLastD sep] = c := dropLast_concat_getLastD sep c hc
  have hnm : sep ∉ [c.getLastD sep] := by
    intro h
    exact hl (List.mem_singleton.mp h).symm
  rw [← hdec, splitOnChar_append, splitOnChar_of_not_mem sep _ hnm]
  simp only [List.headD_cons, List.tail_cons]
  rw [List.getLastD_concat]
  simp

theorem getLastD_cons_default (x : Char) (t : Str) (d d' : Char) :
    (x :: t).getLastD d = (x :: t).getLastD d' := by
  rw [List.getLastD_cons, List.getLastD_cons]

/-- C4: for every file content without carriage returns and without a
trailing newline, `tailFile` returns exactly the last `n` lines of the
content (all lines when there are fewer than `n`, via the truncated
subtraction in the drop count) and `headFile` returns exactly the first
`n` lines, for every `n` — in particular for contents longer than the
1 KiB chunk both loops iterate and the equalities still hold. -/
theorem tailFile_headFile_exact (c : Str) (n : Nat)
    (hcr : '\r' ∉ c) (hnl : c.getLastD 'a' ≠ '\n') :
    tailFile c n = joinWithChar '\n' ((fileLines c).drop ((fileLines c).length - n)) ∧
    headFile c n = joinWithChar '\n' ((fileLines c).take n) := by
  constructor
  · rw [tailFile, fileLines]
    by_cases hc : c.length = 0
    · rw [if_pos hc]
      have hc0 : c = [] := List.length_eq_zero.mp hc
      subst hc0
      rcases n with _ | m
      · rfl
      · have h1 : (splitOnChar '\n' ([] : Str)).length - (m + 1) = 0 := by
          rw [show splitOnChar '\n' ([] : Str) = [[]] from rfl]
          simp
        rw [h1, List.drop_zero, show splitOnChar '\n' ([] : Str) = [[]] from rfl,
          joinWithChar_singleton]
    · rw [if_neg hc]
      apply congrArg
      exact tailGo_spec c n hcr c.length (by omega) (le_refl _) [] [] []
        (by rw [List.drop_length]; rfl) (by simp)
  · rw [headFile, fileLines]
    by_cases hc : c = []
    · subst hc
      rcases n with _ | m
      · rw [headGo, if_neg (by omega)]
        rfl
      · rw [headGo, if_pos (by simp), dif_pos (by simp)]
        rw [show headPost (m + 1) (([] : List Str), ([] : Str)) = [] from rfl]
        rw [show splitOnChar '\n' ([] : Str) = [[]] from rfl,
          List.take_of_length_le (by simp), joinWithChar_singleton]
        rfl
    · apply congrArg
      have hlast : (splitOnChar '\n' c).getLastD [] ≠ [] := by
        apply splitOnChar_getLastD_ne_nil '\n' c hc
        cases c with
        | nil => exact absurd rfl hc
        | cons x t =>
          rw [getLastD_cons_default x t '\n' 'a']
          exact hnl
      exact headGo_spec c n hlast c.length 0 [] [] []
        (by omega) (by omega) (by simp) (by rfl) (by simp)

theorem tailFile_headFile_exact_witness :
    ('\r' ∉ c4File ∧ c4File.getLastD 'a' ≠ '\n') ∧
    tailFile c4File 2 =
      joinWithChar '\n' ((fileLines c4File).drop ((fileLines c4File).length - 2)) ∧
    headFile c4File 2 = joinWithChar '\n' ((fileLines c4File).take 2) :=
  ⟨⟨by decide, by decide⟩,
    (tailFile_headFile_exact c4File 2 (by decide) (by decide)).1,
    (tailFile_headFile_exact c4File 2 (by decide) (by decide)).2⟩
